import Mathlib

/-!
# hash-server: the per-connection session and the port selection of `main`

A shallow embedding of `src/src/main.cpp`.

* Bytes are natural numbers (`0 .. 255`); a chunk delivered by one read completion is a
  `List Nat`, the text accumulated in `output_` is a `List Char`.
* `CryptoPP::SHA256 hash_` is represented by the message it has absorbed since it was
  constructed or last finalised: `Update` appends to that message, `Final` returns the digest of
  the message and restarts the object.  The digest function itself is a parameter of the model;
  `SHA256.sha256` (FIPS 180-4) is the instance the server plugs in.
* The two asynchronous operations are represented by the number of outstanding
  `async_read_some` operations and the list of outstanding `async_write` operations (each with
  the `final` flag its completion handler captured).  A completion event is only enabled when
  the matching operation is outstanding.
* Four history fields (`updates`, `lines`, `written`, `ops`) record what the handlers did; no
  handler reads them.
* The `while` loop of the read handler is given a bound on its iterations, the length of the
  chunk; `read_loop_spec` shows that the bound is never reached before the chunk is consumed.
* The session of the earlier revision `src/main.cpp` has the same two handlers.
-/

namespace HashServer

/-! ## SHA-256 (FIPS 180-4), the digest computed by `CryptoPP::SHA256` -/

namespace SHA256

/-- The first sixty-four prime numbers. -/
def primes : List Nat := [
  2, 3, 5, 7, 11, 13, 17, 19, 23, 29, 31, 37, 41, 43, 47, 53,
  59, 61, 67, 71, 73, 79, 83, 89, 97, 101, 103, 107, 109, 113, 127, 131,
  137, 139, 149, 151, 157, 163, 167, 173, 179, 181, 191, 193, 197, 199, 211, 223,
  227, 229, 233, 239, 241, 251, 257, 263, 269, 271, 277, 281, 283, 293, 307, 311]

/-- Integer root of degree `k` of `n`, built from bit `b - 1` down to bit 0 on top of `r`. -/
def root_bits (k n : Nat) : Nat → Nat → Nat
  | 0, r => r
  | b + 1, r => root_bits k n b (if (r + 2 ^ b) ^ k ≤ n then r + 2 ^ b else r)

/-- First 32 bits of the fractional part of the root of degree `k` of `p`. -/
def frac_root (k p : Nat) : Nat := root_bits k (p * 2 ^ (32 * k)) 36 0 % 2 ^ 32

/-- Round constants of SHA-256: from the cube roots of the first sixty-four primes. -/
def K : List Nat := primes.map (frac_root 3)

/-- Initial hash value of SHA-256: from the square roots of the first eight primes. -/
def H0 : List Nat := (primes.take 8).map (frac_root 2)

/-- Rotation to the right of a 32-bit word. -/
def rotr (x n : Nat) : Nat := ((x >>> n) ||| (x <<< (32 - n))) % 2 ^ 32

/-- Choice function `Ch`. -/
def ch (x y z : Nat) : Nat := (x &&& y) ^^^ ((2 ^ 32 - 1 - x) &&& z)

/-- Majority function `Maj`. -/
def maj (x y z : Nat) : Nat := (x &&& y) ^^^ (x &&& z) ^^^ (y &&& z)

/-- Upper-case sigma 0. -/
def bsig0 (x : Nat) : Nat := rotr x 2 ^^^ rotr x 13 ^^^ rotr x 22

/-- Upper-case sigma 1. -/
def bsig1 (x : Nat) : Nat := rotr x 6 ^^^ rotr x 11 ^^^ rotr x 25

/-- Lower-case sigma 0. -/
def ssig0 (x : Nat) : Nat := rotr x 7 ^^^ rotr x 18 ^^^ (x >>> 3)

/-- Lower-case sigma 1. -/
def ssig1 (x : Nat) : Nat := rotr x 17 ^^^ rotr x 19 ^^^ (x >>> 10)

/-- Message padding: a `0x80` byte, zeros up to 56 modulo 64, the bit length on 8 bytes. -/
def pad (msg : List Nat) : List Nat :=
  msg ++ [0x80] ++ List.replicate ((119 - msg.length % 64) % 64) 0
    ++ (List.range 8).map (fun i => (8 * msg.length) >>> (8 * (7 - i)) % 256)

/-- Big-endian 32-bit words of a byte string. -/
def words : List Nat → List Nat
  | a :: b :: c :: d :: rest => (((a % 256 * 256 + b % 256) * 256 + c % 256) * 256 + d % 256) :: words rest
  | _ => []

/-- The first `n` blocks of sixteen words. -/
def blocks : Nat → List Nat → List (List Nat)
  | 0, _ => []
  | n + 1, ws => ws.take 16 :: blocks n (ws.drop 16)

/-- Extension of the message schedule by `n` words. -/
def schedule : Nat → List Nat → List Nat
  | 0, w => w
  | n + 1, w =>
    let i := w.length
    schedule n (w ++ [(ssig1 (w.getD (i - 2) 0) + w.getD (i - 7) 0 + ssig0 (w.getD (i - 15) 0)
      + w.getD (i - 16) 0) % 2 ^ 32])

/-- The eight working variables. -/
structure Regs where
  a : Nat
  b : Nat
  c : Nat
  d : Nat
  e : Nat
  f : Nat
  g : Nat
  h : Nat

/-- One of the 64 rounds, on a round constant and a schedule word. -/
def round (r : Regs) (kw : Nat × Nat) : Regs :=
  let t1 := (r.h + bsig1 r.e + ch r.e r.f r.g + kw.1 + kw.2) % 2 ^ 32
  let t2 := (bsig0 r.a + maj r.a r.b r.c) % 2 ^ 32
  ⟨(t1 + t2) % 2 ^ 32, r.a, r.b, r.c, (r.d + t1) % 2 ^ 32, r.e, r.f, r.g⟩

/-- Compression of one block into the chaining value. -/
def compress (h : Regs) (block : List Nat) : Regs :=
  let r := (K.zip (schedule 48 block)).foldl round h
  ⟨(h.a + r.a) % 2 ^ 32, (h.b + r.b) % 2 ^ 32, (h.c + r.c) % 2 ^ 32, (h.d + r.d) % 2 ^ 32,
   (h.e + r.e) % 2 ^ 32, (h.f + r.f) % 2 ^ 32, (h.g + r.g) % 2 ^ 32, (h.h + r.h) % 2 ^ 32⟩

/-- Big-endian bytes of a 32-bit word. -/
def be32 (x : Nat) : List Nat := [x >>> 24 % 256, x >>> 16 % 256, x >>> 8 % 256, x % 256]

/-- The 32 digest bytes of a message. -/
def sha256 (msg : List Nat) : List Nat :=
  let p := pad msg
  let r := (blocks (p.length / 64) (words p)).foldl compress
    ⟨H0.getD 0 0, H0.getD 1 0, H0.getD 2 0, H0.getD 3 0, H0.getD 4 0, H0.getD 5 0, H0.getD 6 0,
     H0.getD 7 0⟩
  be32 r.a ++ be32 r.b ++ be32 r.c ++ be32 r.d ++ be32 r.e ++ be32 r.f ++ be32 r.g ++ be32 r.h

end SHA256

/-! ## The session -/

/-- One digit of `CryptoPP::HexEncoder` with its default upper-case alphabet. -/
def hexDigit (n : Nat) : Char := "0123456789ABCDEF".data.getD n '0'

/-- Text appended to the sink by `encoder_.Put(digest_, sizeof(digest_)); encoder_.MessageEnd()`:
two upper-case hexadecimal digits per byte, high nibble first, no separator. -/
def hexEncode (bs : List Nat) : List Char :=
  bs.flatMap (fun b => [hexDigit (b / 16 % 16), hexDigit (b % 16)])

/-- Result of `::memchr(p, c, n)` on the `n` bytes `buf`: the offset of the first occurrence of
`c`, or `none` for the null pointer. -/
def memchr : List Nat → Nat → Option Nat
  | [], _ => none
  | b :: bs, c => if b = c then some 0 else (memchr bs c).map (fun k => k + 1)

/-- An asynchronous operation issued on the socket. -/
inductive Op
  | read
  | write
  deriving DecidableEq

/-- State of `class session`, with the operations outstanding on its socket and a history. -/
structure session where
  /-- Message absorbed by `hash_` since its construction or its last `Final`. -/
  hash_ : List Nat
  /-- Contents of `output_`, the sink of `encoder_`. -/
  output_ : List Char
  /-- Number of outstanding `async_read_some` operations. -/
  reads : Nat
  /-- Outstanding `async_write` operations: the `final` flag captured by each handler. -/
  writes : List Bool
  /-- History: the byte ranges passed to `hash_.Update`, in call order. -/
  updates : List (List Nat)
  /-- History: the digest lines appended to `output_`, in production order. -/
  lines : List (List Char)
  /-- History: the buffers handed to `async_write`, in call order. -/
  written : List (List Char)
  /-- History: the asynchronous operations issued, in call order. -/
  ops : List Op
  deriving DecidableEq

/-- State after the constructor `session::session`: a fresh digest, an empty `output_`, nothing
outstanding. -/
def session.new : session :=
  { hash_ := [], output_ := [], reads := 0, writes := [], updates := [], lines := [],
    written := [], ops := [] }

/-- Effect of `hash_.Update(p, n)` on the `n` bytes `range`. -/
def hash_Update (s : session) (range : List Nat) : session :=
  { s with hash_ := s.hash_ ++ range, updates := s.updates ++ [range] }

/-- The digest line of a message: its hex-encoded digest followed by a newline. -/
def digest_line (digest : List Nat → List Nat) (msg : List Nat) : List Char :=
  hexEncode (digest msg) ++ ['\n']

/-- Body of `if (we_need_to_emit_hash)`: `hash_.Final(digest_)` (which restarts `hash_`), the
hex encoding of `digest_` into `output_`, and `output_.append(1, '\n')`. -/
def emit_hash (digest : List Nat → List Nat) (s : session) : session :=
  { s with hash_ := [],
           output_ := s.output_ ++ digest_line digest s.hash_,
           lines := s.lines ++ [digest_line digest s.hash_] }

/-- One iteration of the `while (buffer_reminder < buffer_end)` loop on the non-empty range
`rem` from `buffer_reminder` to `buffer_end`: the state and the range left afterwards. -/
def read_loop_body (digest : List Nat → List Nat) (ec : Bool) (rem : List Nat) (s : session) :
    session × List Nat :=
  let newline_ptr := memchr rem 10
  let r : session × List Nat × Bool :=
    match newline_ptr with
    | none => (hash_Update s rem, [], false)
    | some k => (hash_Update s (rem.take (k + 1)), rem.drop (k + 1), true)
  let we_need_to_emit_hash := r.2.2 || ec
  (if we_need_to_emit_hash then emit_hash digest r.1 else r.1, r.2.1)

/-- The `while (buffer_reminder < buffer_end)` loop, with a bound on the number of iterations. -/
def read_loop (digest : List Nat → List Nat) (ec : Bool) : Nat → List Nat → session → session
  | 0, _, s => s
  | fuel + 1, rem, s =>
    if 0 < rem.length then
      read_loop digest ec fuel (read_loop_body digest ec rem s).2
        (read_loop_body digest ec rem s).1
    else s

/-- The method `session::do_read`: issues `async_read_some`. -/
def do_read (s : session) : session :=
  { s with reads := s.reads + 1, ops := s.ops ++ [Op.read] }

/-- The method `session::do_write`: issues `async_write` on the contents of `output_`. -/
def do_write (s : session) (final : Bool) : session :=
  { s with writes := s.writes ++ [final], written := s.written ++ [s.output_],
           ops := s.ops ++ [Op.write] }

/-- The method `session::start`. -/
def start (s : session) : session := do_read s

/-- Completion handler of `async_read_some`, called with the error code (`ec = true` for an
error or end of stream) and the `length` bytes `data` now at the start of `data_`.  The
transport delivers at most `data_.size()` bytes; the handler does not depend on that bound. -/
def read_handler (digest : List Nat → List Nat) (s : session) (ec : Bool) (data : List Nat) :
    session :=
  do_write (read_loop digest ec data.length data { s with reads := s.reads - 1 }) ec

/-- Completion handler of `async_write` for an operation that captured `final`, called with the
error code of the write; `rest` are the writes still outstanding. -/
def write_handler (s : session) (final : Bool) (rest : List Bool) (ec : Bool) : session :=
  let s1 := { s with output_ := [], writes := rest }
  if !ec && !final then do_read s1 else s1

/-- A completion delivered to the session. -/
inductive Event
  | read_done (ec : Bool) (data : List Nat)
  | write_done (ec : Bool)
  deriving DecidableEq

/-- Delivery of one completion; `none` when no matching operation is outstanding. -/
def step (digest : List Nat → List Nat) (s : session) : Event → Option session
  | Event.read_done ec data => if 0 < s.reads then some (read_handler digest s ec data) else none
  | Event.write_done ec =>
    match s.writes with
    | [] => none
    | f :: rest => some (write_handler s f rest ec)

/-- Delivery of a sequence of completions. -/
def exec (digest : List Nat → List Nat) : session → List Event → Option session
  | s, [] => some s
  | s, e :: es =>
    match step digest s e with
    | none => none
    | some s1 => exec digest s1 es

/-- States a session can be in: those reached from `start` on a new session by completions. -/
def Reachable (digest : List Nat → List Nat) (s : session) : Prop :=
  ∃ evs, exec digest (start session.new) evs = some s

/-- The session has nothing outstanding: it is released and performs no further I/O. -/
def session.closed (s : session) : Prop := s.reads = 0 ∧ s.writes = []

/-- The chunks received by the read completions of an event sequence. -/
def received : List Event → List (List Nat)
  | [] => []
  | Event.read_done _ data :: es => data :: received es
  | Event.write_done _ :: es => received es

/-- Completions of a connection whose reads and writes all succeed, one chunk per read. -/
def ok_events : List (List Nat) → List Event
  | [] => []
  | c :: cs => Event.read_done false c :: Event.write_done false :: ok_events cs

/-- Operations issued in strict alternation; the flag tells whether a read comes first. -/
def alternating : Bool → List Op → Bool
  | _, [] => true
  | true, Op.read :: os => alternating false os
  | false, Op.write :: os => alternating true os
  | _, _ => false

/-! ## Records of a stream, as the specification words them -/

/-- Records completed by the stream `bs` when `cur` is the unterminated part before it: each
ends at a newline byte (`10`), which it includes. -/
def recordsFrom : List Nat → List Nat → List (List Nat)
  | _, [] => []
  | cur, b :: bs =>
    if b = 10 then (cur ++ [b]) :: recordsFrom [] bs else recordsFrom (cur ++ [b]) bs

/-- Unterminated part left after the stream `bs` when `cur` is the unterminated part before. -/
def tailFrom : List Nat → List Nat → List Nat
  | cur, [] => cur
  | cur, b :: bs => if b = 10 then tailFrom [] bs else tailFrom (cur ++ [b]) bs

/-- The newline-terminated records of a stream, in order. -/
def records (stream : List Nat) : List (List Nat) := recordsFrom [] stream

/-- The bytes of a stream after its last newline. -/
def unterminated (stream : List Nat) : List Nat := tailFrom [] stream

/-- The input of `test_with_specified_size`, one copy: `"1\r\n22\r\n333\r\n4444\r\n"`. -/
def test_input : List Nat :=
  [49, 13, 10, 50, 50, 13, 10, 51, 51, 51, 13, 10, 52, 52, 52, 52, 13, 10]

/-- The expected output of `test_with_specified_size`, one copy. -/
def test_output : List Char :=
  "F1B2F662800122BED0FF255693DF89C4487FBDCF453D3524A42D4EC20C3D9C04".data ++ ['\n'] ++
  "12D3A4EFA6646B3ECE4782F70033B9785BF0D167B553C43E22579B031CEA5C4D".data ++ ['\n'] ++
  "F407DF8F8E7A374565BBFF2C11FCF2B37FBBC6F070CA9E1317240FC9A90C6675".data ++ ['\n'] ++
  "4A325BE077D8A33AD25ED3462CD232AE8367AF77F8070E8E4090670BE7ECBA5A".data ++ ['\n']

/-- Division of a stream into read chunks of at most `n + 1` bytes, as a buffer of that size
delivers it when every read fills the buffer. -/
def chunks_of (n : Nat) : Nat → List Nat → List (List Nat)
  | 0, _ => []
  | fuel + 1, bs => if bs = [] then [] else bs.take (n + 1) :: chunks_of n fuel (bs.drop (n + 1))

/-! ## Port selection in `main` -/

/-- What `main` did: its exit status, whether the handler that prints the
`Invalid port number` diagnostic ran, whether the outer handler printed `Exception:`, and the
port the `hash_service` was started on, if it was started. -/
structure main_result where
  exit_status : Nat
  invalid_port_reported : Bool
  exception_reported : Bool
  served_port : Option Nat
  deriving DecidableEq

/-- A port of type `int` passed for the `unsigned short port` of `hash_service`. -/
def to_unsigned_short (p : Int) : Nat := (p % 65536).toNat

/-- The function `main` of the server build, after the command line is parsed: `help_count` and
`port_count` are `vm.count("help")` and `vm.count("port")`; `as_int` and `as_string` are the
results of `vm["port"].as<int>()` and `vm["port"].as<std::string>()`, `none` when the call
throws. -/
def main (help_count port_count : Nat) (as_int : Option Int) (as_string : Option (List Char)) :
    main_result :=
  if help_count ≠ 0 then ⟨1, false, false, none⟩
  else if port_count = 0 then ⟨0, false, false, some (to_unsigned_short 59999)⟩
  else
    -- `port` after the inner `try` block, and whether the block threw
    let r : Option Int × Bool :=
      match as_int with
      | none => (none, true)
      | some p => if 1024 ≤ p ∧ p ≤ 65535 then (some p, true) else (some p, false)
    if r.2 then
      -- the inner handler prints the diagnostic, which reads the value as a string
      match as_string with
      | none => ⟨0, true, true, none⟩
      | some _ => ⟨0, true, false, r.1.map to_unsigned_short⟩
    else ⟨0, false, false, r.1.map to_unsigned_short⟩


/-- Byte ranges one read handler passes to `Update` on the chunk `rem`: the chunk cut after
each newline. -/
def pieces (rem : List Nat) : List (List Nat) :=
  recordsFrom [] rem ++ (if tailFrom [] rem = [] then [] else [tailFrom [] rem])

/-- Digest lines one read handler appends on the chunk `rem`, when `cur` is the message already
absorbed: one per record completed in the chunk and, on an error code, one for a non-empty
rest of the chunk. -/
def new_lines (digest : List Nat → List Nat) (ec : Bool) (cur rem : List Nat) :
    List (List Char) :=
  (recordsFrom cur rem).map (digest_line digest) ++
    (if ec = true ∧ tailFrom [] rem ≠ [] then [digest_line digest (tailFrom cur rem)] else [])

/-- Message absorbed by the digest after one read handler ran on the chunk `rem`. -/
def new_hash (ec : Bool) (cur rem : List Nat) : List Nat :=
  if ec = true ∧ tailFrom [] rem ≠ [] then [] else tailFrom cur rem

/-- Facts that hold of every state `s` reached by the completions `evs`. -/
structure Inv (evs : List Event) (s : session) : Prop where
  single : s.reads + s.writes.length ≤ 1
  idle_output : s.writes = [] → s.output_ = []
  written_lines : s.written.flatten = s.lines.flatten
  coverage : s.updates.flatten = (received evs).flatten
  alt : alternating true s.ops = true
  read_parity : 0 < s.reads → s.ops.length % 2 = 1
  write_parity : s.writes ≠ [] → s.ops.length % 2 = 0

/-! ## Lemmas on `memchr` and on records -/

theorem memchr_none {c : Nat} : ∀ {l : List Nat}, memchr l c = none → c ∉ l
  | [], _ => by simp
  | b :: bs, h => by
    unfold memchr at h
    by_cases hb : b = c
    · simp [hb] at h
    · simp only [hb, if_false, Option.map_eq_none'] at h
      have := memchr_none h
      simp [this, Ne.symm hb]

theorem memchr_some {c : Nat} : ∀ {l : List Nat} {k : Nat}, memchr l c = some k →
    ∃ pre post, l = pre ++ c :: post ∧ c ∉ pre ∧ pre.length = k
  | [], _, h => by simp [memchr] at h
  | b :: bs, k, h => by
    unfold memchr at h
    by_cases hb : b = c
    · simp only [hb, if_true, Option.some.injEq] at h
      exact ⟨[], bs, by simp [hb], by simp, by simpa using h⟩
    · simp only [hb, if_false, Option.map_eq_some'] at h
      obtain ⟨j, hj, rfl⟩ := h
      obtain ⟨pre, post, h1, h2, h3⟩ := memchr_some hj
      exact ⟨b :: pre, post, by simp [h1], by simp [h2, Ne.symm hb], by simp [h3]⟩

theorem recordsFrom_of_not_mem : ∀ (l cur : List Nat), 10 ∉ l → recordsFrom cur l = []
  | [], _, _ => rfl
  | b :: bs, cur, h => by
    have hb : b ≠ 10 := fun e => h (by simp [e])
    have hbs : 10 ∉ bs := fun e => h (by simp [e])
    simp [recordsFrom, hb, recordsFrom_of_not_mem bs _ hbs]

theorem tailFrom_of_not_mem : ∀ (l cur : List Nat), 10 ∉ l → tailFrom cur l = cur ++ l
  | [], _, _ => by simp [tailFrom]
  | b :: bs, cur, h => by
    have hb : b ≠ 10 := fun e => h (by simp [e])
    have hbs : 10 ∉ bs := fun e => h (by simp [e])
    simp [tailFrom, hb, tailFrom_of_not_mem bs _ hbs]

theorem recordsFrom_split : ∀ (pre cur post : List Nat), 10 ∉ pre →
    recordsFrom cur (pre ++ 10 :: post) = (cur ++ pre ++ [10]) :: recordsFrom [] post
  | [], cur, post, _ => by simp [recordsFrom]
  | b :: bs, cur, post, h => by
    have hb : b ≠ 10 := fun e => h (by simp [e])
    have hbs : 10 ∉ bs := fun e => h (by simp [e])
    simp [recordsFrom, hb, recordsFrom_split bs _ post hbs]

theorem tailFrom_split : ∀ (pre cur post : List Nat), 10 ∉ pre →
    tailFrom cur (pre ++ 10 :: post) = tailFrom [] post
  | [], cur, post, _ => by simp [tailFrom]
  | b :: bs, cur, post, h => by
    have hb : b ≠ 10 := fun e => h (by simp [e])
    have hbs : 10 ∉ bs := fun e => h (by simp [e])
    simp [tailFrom, hb, tailFrom_split bs _ post hbs]

theorem recordsFrom_append : ∀ (a cur b : List Nat),
    recordsFrom cur (a ++ b) = recordsFrom cur a ++ recordsFrom (tailFrom cur a) b
  | [], cur, b => by simp [recordsFrom, tailFrom]
  | x :: xs, cur, b => by
    by_cases hx : x = 10
    · simp [recordsFrom, tailFrom, hx, recordsFrom_append xs [] b]
    · simp [recordsFrom, tailFrom, hx, recordsFrom_append xs (cur ++ [x]) b]

theorem tailFrom_append : ∀ (a cur b : List Nat),
    tailFrom cur (a ++ b) = tailFrom (tailFrom cur a) b
  | [], cur, b => by simp [tailFrom]
  | x :: xs, cur, b => by
    by_cases hx : x = 10
    · simp [tailFrom, hx, tailFrom_append xs [] b]
    · simp [tailFrom, hx, tailFrom_append xs (cur ++ [x]) b]

theorem recordsFrom_length : ∀ (l cur : List Nat), (recordsFrom cur l).length = l.count 10
  | [], _ => rfl
  | x :: xs, cur => by
    by_cases hx : x = 10
    · simp [recordsFrom, hx, recordsFrom_length xs []]
    · simp [recordsFrom, hx, recordsFrom_length xs (cur ++ [x]), List.count_cons]

theorem recordsFrom_join : ∀ (l cur : List Nat),
    (recordsFrom cur l).flatten ++ tailFrom cur l = cur ++ l
  | [], _ => by simp [recordsFrom, tailFrom]
  | x :: xs, cur => by
    by_cases hx : x = 10
    · simp [recordsFrom, tailFrom, hx, recordsFrom_join xs []]
    · simp [recordsFrom, tailFrom, hx, recordsFrom_join xs (cur ++ [x])]

theorem recordsFrom_shape : ∀ (l cur : List Nat), 10 ∉ cur →
    ∀ r ∈ recordsFrom cur l, ∃ body, r = body ++ [10] ∧ 10 ∉ body
  | [], _, _ => by simp [recordsFrom]
  | x :: xs, cur, hc => by
    by_cases hx : x = 10
    · intro r hr
      simp only [recordsFrom, hx, if_true, List.mem_cons] at hr
      rcases hr with rfl | hr
      · exact ⟨cur, rfl, hc⟩
      · exact recordsFrom_shape xs [] (by simp) r hr
    · intro r hr
      simp only [recordsFrom, hx, if_false] at hr
      exact recordsFrom_shape xs (cur ++ [x]) (by simp [hc, Ne.symm hx]) r hr

theorem tailFrom_not_mem : ∀ (l cur : List Nat), 10 ∉ cur → 10 ∉ tailFrom cur l
  | [], _, hc => by simpa [tailFrom] using hc
  | x :: xs, cur, hc => by
    by_cases hx : x = 10
    · simpa [tailFrom, hx] using tailFrom_not_mem xs [] (by simp)
    · simpa [tailFrom, hx] using tailFrom_not_mem xs (cur ++ [x]) (by simp [hc, Ne.symm hx])


theorem getLast?_cons_eq (x : Nat) (xs : List Nat) :
    (x :: xs).getLast? = if xs = [] then some x else xs.getLast? := by
  cases xs with
  | nil => simp
  | cons y ys => simp [List.getLast?_cons_cons]

theorem tailFrom_eq_nil : ∀ (l cur : List Nat),
    tailFrom cur l = [] ↔ (l = [] ∧ cur = []) ∨ l.getLast? = some 10
  | [], cur => by simp [tailFrom]
  | x :: xs, cur => by
    rw [getLast?_cons_eq]
    by_cases hx : x = 10
    · simp only [tailFrom, hx, if_true, tailFrom_eq_nil xs []]
      by_cases hxs : xs = [] <;> simp [hxs]
    · simp only [tailFrom, hx, if_false, tailFrom_eq_nil xs (cur ++ [x])]
      by_cases hxs : xs = [] <;> simp [hxs, hx]

/-! ## The read loop -/

theorem read_loop_nil (digest : List Nat → List Nat) (ec : Bool) (fuel : Nat) (s : session) :
    read_loop digest ec fuel [] s = s := by
  cases fuel <;> simp [read_loop]

theorem read_loop_body_none (digest : List Nat → List Nat) (ec : Bool) (rem : List Nat)
    (s : session) (h : memchr rem 10 = none) :
    read_loop_body digest ec rem s =
      (if ec then emit_hash digest (hash_Update s rem) else hash_Update s rem, []) := by
  simp [read_loop_body, h]

theorem read_loop_body_some (digest : List Nat → List Nat) (ec : Bool) (pre post : List Nat)
    (s : session) (k : Nat) (h : memchr (pre ++ 10 :: post) 10 = some k) (hk : pre.length = k) :
    read_loop_body digest ec (pre ++ 10 :: post) s =
      (emit_hash digest (hash_Update s (pre ++ [10])), post) := by
  subst hk
  have e : pre ++ 10 :: post = (pre ++ [10]) ++ post := by simp
  have ht : (pre ++ 10 :: post).take (pre.length + 1) = pre ++ [10] := by
    rw [e]; exact List.take_left' (by simp)
  have hd : (pre ++ 10 :: post).drop (pre.length + 1) = post := by
    rw [e]; exact List.drop_left' (by simp)
  simp only [read_loop_body, h, ht, hd, Bool.true_or, if_true]

/-- The loop with enough iterations allowed, in closed form. -/
theorem read_loop_spec (digest : List Nat → List Nat) (ec : Bool) :
    ∀ (fuel : Nat) (rem : List Nat) (s : session), rem.length ≤ fuel →
      read_loop digest ec fuel rem s =
        { s with hash_ := new_hash ec s.hash_ rem,
                 output_ := s.output_ ++ (new_lines digest ec s.hash_ rem).flatten,
                 lines := s.lines ++ new_lines digest ec s.hash_ rem,
                 updates := s.updates ++ pieces rem }
  | fuel, [], s, _ => by
    rw [read_loop_nil]
    simp [new_hash, new_lines, pieces, tailFrom, recordsFrom]
  | 0, x :: xs, s, h => by simp at h
  | fuel + 1, x :: xs, s, h => by
    have hlen : 0 < (x :: xs).length := by simp
    rw [read_loop, if_pos hlen]
    cases hm : memchr (x :: xs) 10 with
    | none =>
      have hnot := memchr_none hm
      rw [read_loop_body_none digest ec _ s hm]
      simp only [read_loop_nil]
      have ht : tailFrom [] (x :: xs) = x :: xs := by
        simpa using tailFrom_of_not_mem (x :: xs) [] hnot
      cases ec <;>
        simp [new_hash, new_lines, pieces, ht, recordsFrom_of_not_mem _ _ hnot,
          tailFrom_of_not_mem _ _ hnot, emit_hash, hash_Update]
    | some k =>
      obtain ⟨pre, post, hl, hpre, hk⟩ := memchr_some hm
      rw [hl] at hm h ⊢
      rw [read_loop_body_some digest ec pre post s k hm hk]
      have hpost : post.length ≤ fuel := by
        simp only [List.length_append, List.length_cons] at h
        omega
      rw [read_loop_spec digest ec fuel post _ hpost]
      have h1 := recordsFrom_split pre [] post hpre
      have h2 := tailFrom_split pre [] post hpre
      simp only [List.nil_append] at h1
      simp [new_hash, new_lines, pieces, recordsFrom_split _ _ _ hpre, tailFrom_split _ _ _ hpre,
        h1, h2, emit_hash, hash_Update]


/-! ## The handlers -/

/-- The read handler in closed form. -/
theorem read_handler_spec (digest : List Nat → List Nat) (s : session) (ec : Bool)
    (data : List Nat) :
    read_handler digest s ec data =
      { hash_ := new_hash ec s.hash_ data,
        output_ := s.output_ ++ (new_lines digest ec s.hash_ data).flatten,
        reads := s.reads - 1,
        writes := s.writes ++ [ec],
        updates := s.updates ++ pieces data,
        lines := s.lines ++ new_lines digest ec s.hash_ data,
        written := s.written ++ [s.output_ ++ (new_lines digest ec s.hash_ data).flatten],
        ops := s.ops ++ [Op.write] } := by
  unfold read_handler
  rw [read_loop_spec digest ec data.length data _ (le_refl _)]
  rfl

theorem pieces_flatten (rem : List Nat) : (pieces rem).flatten = rem := by
  have h := recordsFrom_join rem []
  unfold pieces
  by_cases ht : tailFrom [] rem = []
  · simpa [ht] using h
  · simpa [ht] using h

theorem new_lines_ok (digest : List Nat → List Nat) (cur rem : List Nat) :
    new_lines digest false cur rem = (recordsFrom cur rem).map (digest_line digest) := by
  simp [new_lines]

theorem new_hash_ok (cur rem : List Nat) : new_hash false cur rem = tailFrom cur rem := by
  simp [new_hash]

theorem new_lines_length (digest : List Nat → List Nat) (ec : Bool) (cur rem : List Nat) :
    (new_lines digest ec cur rem).length =
      rem.count 10 + (if ec = true ∧ rem ≠ [] ∧ rem.getLast? ≠ some 10 then 1 else 0) := by
  have ht := tailFrom_eq_nil rem []
  unfold new_lines
  rw [List.length_append, List.length_map, recordsFrom_length]
  by_cases hec : ec = true
  · by_cases hn : tailFrom [] rem = []
    · have := ht.mp hn
      have hc : ¬ (rem ≠ [] ∧ rem.getLast? ≠ some 10) := by
        rintro ⟨h1, h2⟩
        rcases this with ⟨h3, _⟩ | h3
        · exact h1 h3
        · exact h2 h3
      simp [hec, hn, hc]
    · have hc : rem ≠ [] ∧ rem.getLast? ≠ some 10 := by
        constructor
        · intro h; exact hn (ht.mpr (Or.inl ⟨h, rfl⟩))
        · intro h; exact hn (ht.mpr (Or.inr h))
      simp [hec, hn, hc]
  · simp [hec]

/-! ## Sequences of completions -/

theorem exec_append (digest : List Nat → List Nat) : ∀ (a : List Event) (s : session)
    (b : List Event),
    exec digest s (a ++ b) = (exec digest s a).bind (fun s1 => exec digest s1 b)
  | [], s, b => by simp [exec]
  | e :: es, s, b => by
    simp only [List.cons_append, exec]
    cases step digest s e with
    | none => simp
    | some s1 => simpa using exec_append digest es s1 b

theorem received_append : ∀ (a b : List Event), received (a ++ b) = received a ++ received b
  | [], b => by simp [received]
  | Event.read_done _ data :: es, b => by simp [received, received_append es b]
  | Event.write_done _ :: es, b => by simp [received, received_append es b]

theorem alternating_snoc : ∀ (os : List Op), alternating true os = true →
    (os.length % 2 = 0 → alternating true (os ++ [Op.read]) = true) ∧
    (os.length % 2 = 1 → alternating true (os ++ [Op.write]) = true)
  | [], _ => by simp [alternating]
  | [Op.read], _ => by simp [alternating]
  | [Op.write], h => by simp [alternating] at h
  | Op.read :: Op.read :: os, h => by simp [alternating] at h
  | Op.write :: _ :: os, h => by simp [alternating] at h
  | Op.read :: Op.write :: os, h => by
    have ih := alternating_snoc os (by simpa [alternating] using h)
    simp only [List.cons_append, alternating, List.length_cons]
    constructor
    · intro hl; exact ih.1 (by omega)
    · intro hl; exact ih.2 (by omega)

theorem inv_start : Inv [] (start session.new) where
  single := by simp [start, do_read, session.new]
  idle_output := by simp [start, do_read, session.new]
  written_lines := by simp [start, do_read, session.new]
  coverage := by simp [start, do_read, session.new, received]
  alt := by simp [start, do_read, session.new, alternating]
  read_parity := by simp [start, do_read, session.new]
  write_parity := by simp [start, do_read, session.new]

theorem inv_step (digest : List Nat → List Nat) {evs : List Event} {s s1 : session} (e : Event)
    (hi : Inv evs s) (hs : step digest s e = some s1) : Inv (evs ++ [e]) s1 := by
  cases e with
  | read_done ec data =>
    simp only [step] at hs
    by_cases hr : 0 < s.reads
    · simp only [hr, if_true, Option.some.injEq] at hs
      subst hs
      rw [read_handler_spec]
      have h1 := hi.single
      have hw : s.writes = [] := List.length_eq_zero.mp (by omega)
      have ho := hi.idle_output hw
      have hp := hi.read_parity hr
      exact {
        single := by simp [hw]; omega
        idle_output := by simp
        written_lines := by simp [hi.written_lines, ho]
        coverage := by simp [received_append, received, hi.coverage, pieces_flatten]
        alt := (alternating_snoc s.ops hi.alt).2 hp
        read_parity := by simp; omega
        write_parity := by simp; omega }
    · simp [hr] at hs
  | write_done ec =>
    simp only [step] at hs
    cases hw : s.writes with
    | nil => simp [hw] at hs
    | cons f rest =>
      simp only [hw, Option.some.injEq] at hs
      subst hs
      have h1 := hi.single
      rw [hw] at h1
      simp only [List.length_cons] at h1
      have hrest : rest = [] := List.length_eq_zero.mp (by omega)
      have hr : s.reads = 0 := by omega
      have hp := hi.write_parity (by simp [hw])
      subst hrest
      unfold write_handler
      by_cases hc : (!ec && !f) = true
      · simp only [hc, if_true]
        exact {
          single := by simp [do_read, hr]
          idle_output := by simp [do_read]
          written_lines := by simpa [do_read] using hi.written_lines
          coverage := by simpa [do_read, received_append, received] using hi.coverage
          alt := by simpa [do_read] using (alternating_snoc s.ops hi.alt).1 hp
          read_parity := by simp [do_read]; omega
          write_parity := by simp [do_read] }
      · simp only [hc]
        exact {
          single := by simp [hr]
          idle_output := by simp
          written_lines := by simpa using hi.written_lines
          coverage := by simpa [received_append, received] using hi.coverage
          alt := by simpa using hi.alt
          read_parity := by simp [hr]
          write_parity := by simp }

theorem inv_exec (digest : List Nat → List Nat) : ∀ (evs : List Event) (s : session),
    exec digest (start session.new) evs = some s → Inv evs s := by
  intro evs
  induction evs using List.reverseRecOn with
  | nil =>
    intro s h
    simp only [exec, Option.some.injEq] at h
    subst h
    exact inv_start
  | append_singleton es e ih =>
    intro s h
    rw [exec_append] at h
    cases hm : exec digest (start session.new) es with
    | none => simp [hm] at h
    | some s0 =>
      simp only [hm, Option.some_bind, exec] at h
      cases hst : step digest s0 e with
      | none => simp [hst] at h
      | some s1 =>
        simp only [hst, Option.some.injEq] at h
        subst h
        exact inv_step digest e (ih s0 hm) hst


/-! ## Connections whose reads and writes all succeed -/

/-- One successful read followed by its successful write. -/
theorem exec_ok_round (digest : List Nat → List Nat) (s : session) (c : List Nat)
    (rest : List Event) (hr : s.reads = 1) (hw : s.writes = []) (ho : s.output_ = []) :
    exec digest s (Event.read_done false c :: Event.write_done false :: rest) =
      exec digest
        { hash_ := tailFrom s.hash_ c,
          output_ := [],
          reads := 1,
          writes := [],
          updates := s.updates ++ pieces c,
          lines := s.lines ++ (recordsFrom s.hash_ c).map (digest_line digest),
          written := s.written ++ [((recordsFrom s.hash_ c).map (digest_line digest)).flatten],
          ops := s.ops ++ [Op.write] ++ [Op.read] } rest := by
  simp [exec, step, hr, read_handler_spec, hw, ho, write_handler, do_read, new_lines_ok,
    new_hash_ok]

/-- A connection of successful reads and writes, in closed form. -/
theorem exec_ok_events (digest : List Nat → List Nat) : ∀ (chunks : List (List Nat))
    (s : session), s.reads = 1 → s.writes = [] → s.output_ = [] →
    ∃ s1, exec digest s (ok_events chunks) = some s1 ∧
      s1.hash_ = tailFrom s.hash_ chunks.flatten ∧
      s1.lines = s.lines ++ (recordsFrom s.hash_ chunks.flatten).map (digest_line digest) ∧
      s1.written.flatten = s.written.flatten ++
        ((recordsFrom s.hash_ chunks.flatten).map (digest_line digest)).flatten ∧
      s1.reads = 1 ∧ s1.writes = [] ∧ s1.output_ = []
  | [], s, hr, hw, ho => by
    exact ⟨s, by simp [ok_events, exec], by simp [tailFrom], by simp [recordsFrom],
      by simp [recordsFrom], hr, hw, ho⟩
  | c :: cs, s, hr, hw, ho => by
    rw [ok_events, exec_ok_round digest s c _ hr hw ho]
    obtain ⟨s1, h1, h2, h3, h4, h5, h6, h7⟩ := exec_ok_events digest cs
      { hash_ := tailFrom s.hash_ c,
        output_ := [],
        reads := 1,
        writes := [],
        updates := s.updates ++ pieces c,
        lines := s.lines ++ (recordsFrom s.hash_ c).map (digest_line digest),
        written := s.written ++ [((recordsFrom s.hash_ c).map (digest_line digest)).flatten],
        ops := s.ops ++ [Op.write] ++ [Op.read] } rfl rfl rfl
    refine ⟨s1, h1, ?_, ?_, ?_, h5, h6, h7⟩
    · simp [h2, tailFrom_append]
    · simp [h3, recordsFrom_append]
    · simp [h4, recordsFrom_append]

theorem records_replicate (block : List Nat) (hb : unterminated block = []) : ∀ (n : Nat),
    records (List.replicate n block).flatten = (List.replicate n (records block)).flatten ∧
    unterminated (List.replicate n block).flatten = []
  | 0 => by simp [records, unterminated, recordsFrom, tailFrom]
  | n + 1 => by
    have ih := records_replicate block hb n
    simp only [records, unterminated] at ih hb ⊢
    simp only [List.replicate_succ, List.flatten_cons, recordsFrom_append, tailFrom_append, hb]
    exact ⟨by rw [ih.1], ih.2⟩

theorem map_flatten_replicate {α β : Type} (f : α → List β) (xs : List α) : ∀ (n : Nat),
    ((List.replicate n xs).flatten.map f).flatten = (List.replicate n (xs.map f).flatten).flatten
  | 0 => by simp
  | n + 1 => by
    simp only [List.replicate_succ, List.flatten_cons, List.map_append, List.flatten_append,
      map_flatten_replicate f xs n]

set_option maxRecDepth 100000 in
/-- The four records of the test input have the four digest lines of the expected output. -/
theorem test_vector :
    ((records test_input).map (digest_line SHA256.sha256)).flatten = test_output ∧
    unterminated test_input = [] := by
  decide

/-- C1: fed to a fresh session as any sequence of successful reads, a stream makes the
session write back exactly one line per newline of the stream, in input order: line `i` is the
upper-case hex digest of the `i`-th record followed by a newline, where the records are the
consecutive ranges of the stream that each end at (and include) a newline, a preceding carriage
return included.  On the test input repeated 4096 times, in any chunking, the session writes
the four expected lines repeated 4096 times. -/
theorem session_output_is_digest_per_line :
    (∀ (digest : List Nat → List Nat) (chunks : List (List Nat)),
      ∃ s, exec digest (start session.new) (ok_events chunks) = some s ∧
        s.written.flatten = ((records chunks.flatten).map (digest_line digest)).flatten ∧
        s.lines = (records chunks.flatten).map (digest_line digest) ∧
        (records chunks.flatten).length = chunks.flatten.count 10 ∧
        (∀ r ∈ records chunks.flatten, ∃ body, r = body ++ [10] ∧ 10 ∉ body) ∧
        (records chunks.flatten).flatten ++ unterminated chunks.flatten = chunks.flatten ∧
        10 ∉ unterminated chunks.flatten) ∧
    (∀ (chunks : List (List Nat)),
      chunks.flatten = (List.replicate 4096 test_input).flatten →
      ∃ s, exec SHA256.sha256 (start session.new) (ok_events chunks) = some s ∧
        s.written.flatten = (List.replicate 4096 test_output).flatten) := by
  have key : ∀ (digest : List Nat → List Nat) (chunks : List (List Nat)),
      ∃ s, exec digest (start session.new) (ok_events chunks) = some s ∧
        s.written.flatten = ((records chunks.flatten).map (digest_line digest)).flatten ∧
        s.lines = (records chunks.flatten).map (digest_line digest) := by
    intro digest chunks
    obtain ⟨s, h1, _, h3, h4, _⟩ :=
      exec_ok_events digest chunks (start session.new) rfl rfl rfl
    exact ⟨s, h1, by simpa [start, do_read, session.new, records] using h4,
      by simpa [start, do_read, session.new, records] using h3⟩
  constructor
  · intro digest chunks
    obtain ⟨s, h1, h2, h3⟩ := key digest chunks
    refine ⟨s, h1, h2, h3, recordsFrom_length _ _, recordsFrom_shape _ _ (by simp), ?_,
      tailFrom_not_mem _ _ (by simp)⟩
    simpa using recordsFrom_join chunks.flatten []
  · intro chunks hc
    obtain ⟨s, h1, h2, _⟩ := key SHA256.sha256 chunks
    refine ⟨s, h1, ?_⟩
    rw [h2, hc, (records_replicate test_input test_vector.2 4096).1, map_flatten_replicate,
      test_vector.1]

/-- C1 at a concrete input: the whole test input delivered by a single read. -/
theorem session_output_is_digest_per_line_witness :
    ∃ s, exec SHA256.sha256 (start session.new)
        (ok_events [(List.replicate 4096 test_input).flatten]) = some s ∧
      s.written.flatten = (List.replicate 4096 test_output).flatten :=
  session_output_is_digest_per_line.2 [(List.replicate 4096 test_input).flatten]
    (List.append_nil _)

theorem chunks_of_flatten (n : Nat) : ∀ (fuel : Nat) (bs : List Nat), bs.length ≤ fuel →
    (chunks_of n fuel bs).flatten = bs
  | 0, bs, h => by
    have : bs = [] := List.length_eq_zero.mp (by omega)
    simp [chunks_of, this]
  | fuel + 1, bs, h => by
    unfold chunks_of
    by_cases hb : bs = []
    · simp [hb]
    · have hpos : 0 < bs.length := List.length_pos.mpr hb
      have hd : (bs.drop (n + 1)).length ≤ fuel := by
        rw [List.length_drop]; omega
      simp [hb, chunks_of_flatten n fuel _ hd]

/-- C2: two divisions of one stream into successfully read chunks make the session produce
the same sequence of digest lines, write back the same text and keep the same open digest; so
do, for every stream, read buffers of any two sizes (1, 2, 3 or 2048 bytes, say), and a record
of three bytes read one byte at a time or in one read. -/
theorem chunking_independence (digest : List Nat → List Nat) :
    (∀ (cs1 cs2 : List (List Nat)), cs1.flatten = cs2.flatten →
      ∃ s1 s2, exec digest (start session.new) (ok_events cs1) = some s1 ∧
        exec digest (start session.new) (ok_events cs2) = some s2 ∧
        s1.lines = s2.lines ∧ s1.written.flatten = s2.written.flatten ∧
        s1.hash_ = s2.hash_) ∧
    (∀ (stream : List Nat) (n m : Nat),
      ∃ s1 s2,
        exec digest (start session.new) (ok_events (chunks_of n stream.length stream)) = some s1 ∧
        exec digest (start session.new) (ok_events (chunks_of m stream.length stream)) = some s2 ∧
        s1.lines = s2.lines ∧ s1.written.flatten = s2.written.flatten) ∧
    (∀ (a b : Nat),
      ∃ s1 s2, exec digest (start session.new) (ok_events [[a], [b], [10]]) = some s1 ∧
        exec digest (start session.new) (ok_events [[a, b, 10]]) = some s2 ∧
        s1.lines = s2.lines ∧ s1.written.flatten = s2.written.flatten) := by
  have key : ∀ (cs1 cs2 : List (List Nat)), cs1.flatten = cs2.flatten →
      ∃ s1 s2, exec digest (start session.new) (ok_events cs1) = some s1 ∧
        exec digest (start session.new) (ok_events cs2) = some s2 ∧
        s1.lines = s2.lines ∧ s1.written.flatten = s2.written.flatten ∧
        s1.hash_ = s2.hash_ := by
    intro cs1 cs2 h
    obtain ⟨s1, a1, a2, a3, a4, _⟩ := exec_ok_events digest cs1 (start session.new) rfl rfl rfl
    obtain ⟨s2, b1, b2, b3, b4, _⟩ := exec_ok_events digest cs2 (start session.new) rfl rfl rfl
    exact ⟨s1, s2, a1, b1, by rw [a3, b3, h], by rw [a4, b4, h], by rw [a2, b2, h]⟩
  refine ⟨key, ?_, ?_⟩
  · intro stream n m
    obtain ⟨s1, s2, h1, h2, h3, h4, _⟩ := key (chunks_of n stream.length stream)
      (chunks_of m stream.length stream)
      (by rw [chunks_of_flatten n _ _ (le_refl _), chunks_of_flatten m _ _ (le_refl _)])
    exact ⟨s1, s2, h1, h2, h3, h4⟩
  · intro a b
    obtain ⟨s1, s2, h1, h2, h3, h4, _⟩ := key [[a], [b], [10]] [[a, b, 10]] (by simp)
    exact ⟨s1, s2, h1, h2, h3, h4⟩

/-- C2 at a concrete input: `"ab\ncd"` read as `"a"`, `"b\nc"`, `"d"` or in one read. -/
theorem chunking_independence_witness :
    ∃ s1 s2,
      exec SHA256.sha256 (start session.new)
        (ok_events [[97], [98, 10, 99], [100]]) = some s1 ∧
      exec SHA256.sha256 (start session.new) (ok_events [[97, 98, 10, 99, 100]]) = some s2 ∧
      s1.lines = s2.lines ∧ s1.written.flatten = s2.written.flatten ∧ s1.hash_ = s2.hash_ :=
  (chunking_independence SHA256.sha256).1 [[97], [98, 10, 99], [100]] [[97, 98, 10, 99, 100]]
    (by decide)


/-! ## End of stream -/

/-- C3, the code at the failing input: after a successful read of `"abc"` and its write, the
read that reports end of stream with no byte emits nothing; the session closes with no digest
line produced or written and with the three bytes still in the open digest. -/
theorem unterminated_tail_lost_on_empty_eof (digest : List Nat → List Nat) :
    ∃ s, exec digest (start session.new)
        [Event.read_done false [97, 98, 99], Event.write_done false,
         Event.read_done true [], Event.write_done false] = some s ∧
      s.lines = [] ∧ s.written.flatten = [] ∧ s.hash_ = [97, 98, 99] ∧ s.closed :=
  ⟨_, rfl, rfl, rfl, rfl, rfl, rfl⟩

/-- When the read that reports the end of the stream carries at least one byte and the stream
does not end with a newline, the unterminated rest gets its digest line, after the lines of the
records, and the session closes. -/
theorem flush_on_close_with_data (digest : List Nat → List Nat) (chunks : List (List Nat))
    (d : List Nat) (ec_w : Bool) (hd : d ≠ [])
    (ht : unterminated (chunks.flatten ++ d) ≠ []) :
    ∃ s, exec digest (start session.new)
        (ok_events chunks ++ [Event.read_done true d, Event.write_done ec_w]) = some s ∧
      s.lines = (records (chunks.flatten ++ d)).map (digest_line digest) ++
        [digest_line digest (unterminated (chunks.flatten ++ d))] ∧
      s.written.flatten = s.lines.flatten ∧ s.closed := by
  obtain ⟨s1, h1, h2, h3, h4, h5, h6, h7⟩ :=
    exec_ok_events digest chunks (start session.new) rfl rfl rfl
  have e2 : s1.hash_ = tailFrom [] chunks.flatten := h2
  have e3 : s1.lines = (recordsFrom [] chunks.flatten).map (digest_line digest) := by
    simpa [start, do_read, session.new] using h3
  have e4 : s1.written.flatten =
      ((recordsFrom [] chunks.flatten).map (digest_line digest)).flatten := by
    simpa [start, do_read, session.new] using h4
  simp only [unterminated, tailFrom_append] at ht
  have hne : tailFrom [] d ≠ [] := by
    intro h0
    rcases (tailFrom_eq_nil d []).mp h0 with ⟨h, _⟩ | h
    · exact hd h
    · exact ht ((tailFrom_eq_nil d _).mpr (Or.inr h))
  rw [exec_append, h1]
  refine ⟨write_handler (read_handler digest s1 true d) true [] ec_w, ?_, ?_, ?_, ?_⟩
  · simp [exec, step, h5, h6, read_handler_spec]
  · simp [write_handler, read_handler_spec, new_lines, hne, e2, e3, records, unterminated,
      recordsFrom_append, tailFrom_append]
  · simp [write_handler, read_handler_spec, new_lines, hne, e4, e3, h7]
  · simp [write_handler, read_handler_spec, session.closed, h5, h6]

/-- C4: in every state a session reaches, the byte ranges passed to `Update`, concatenated in
call order, are the chunks received by the read completions, concatenated in order, whatever
the sizes and the statuses. -/
theorem byte_coverage (digest : List Nat → List Nat) (evs : List Event) (s : session)
    (h : exec digest (start session.new) evs = some s) :
    s.updates.flatten = (received evs).flatten :=
  (inv_exec digest evs s h).coverage

/-- C4 at a concrete input: `"a\nb"` read successfully, then `"c"` with end of stream. -/
theorem byte_coverage_witness :
    ∃ s, exec SHA256.sha256 (start session.new)
        [Event.read_done false [97, 10, 98], Event.write_done false,
         Event.read_done true [99], Event.write_done true] = some s ∧
      s.updates.flatten = [97, 10, 98, 99] :=
  ⟨_, rfl, byte_coverage SHA256.sha256
    [Event.read_done false [97, 10, 98], Event.write_done false,
     Event.read_done true [99], Event.write_done true] _ rfl⟩

/-- C5: a read completion with status ok appends exactly the digest lines of the records the
chunk completes, one per newline byte of the chunk, and leaves the rest in the open digest; a
chunk without newline appends nothing and extends the open digest by its bytes; a chunk of
zero bytes changes neither the digest nor the history of `Update` calls. -/
theorem ok_read_emits_one_line_per_newline (digest : List Nat → List Nat) (s : session)
    (data : List Nat) :
    (∃ new, (read_handler digest s false data).lines = s.lines ++ new ∧
      (read_handler digest s false data).output_ = s.output_ ++ new.flatten ∧
      new = (recordsFrom s.hash_ data).map (digest_line digest) ∧
      new.length = data.count 10) ∧
    (read_handler digest s false data).hash_ = tailFrom s.hash_ data ∧
    (10 ∉ data →
      (read_handler digest s false data).lines = s.lines ∧
      (read_handler digest s false data).output_ = s.output_ ∧
      (read_handler digest s false data).hash_ = s.hash_ ++ data) ∧
    ((read_handler digest s false []).hash_ = s.hash_ ∧
      (read_handler digest s false []).updates = s.updates ∧
      (read_handler digest s false []).lines = s.lines ∧
      (read_handler digest s false []).output_ = s.output_) := by
  refine ⟨⟨_, ?_, ?_, rfl, ?_⟩, ?_, ?_, ?_⟩
  · rw [read_handler_spec, new_lines_ok]
  · rw [read_handler_spec, new_lines_ok]
  · rw [List.length_map, recordsFrom_length]
  · rw [read_handler_spec, new_hash_ok]
  · intro h
    rw [read_handler_spec, new_lines_ok, new_hash_ok]
    simp [recordsFrom_of_not_mem _ _ h, tailFrom_of_not_mem _ _ h]
  · rw [read_handler_spec]
    simp [new_hash, new_lines, pieces, tailFrom, recordsFrom]

/-- C5 at a concrete input: the chunk `"bc"` after `"a"` was absorbed. -/
theorem ok_read_emits_one_line_per_newline_witness :
    (read_handler SHA256.sha256 (hash_Update (start session.new) [97]) false [98, 99]).lines = [] ∧
    (read_handler SHA256.sha256 (hash_Update (start session.new) [97]) false [98, 99]).output_
      = [] ∧
    (read_handler SHA256.sha256 (hash_Update (start session.new) [97]) false [98, 99]).hash_
      = [97, 98, 99] :=
  (ok_read_emits_one_line_per_newline SHA256.sha256 (hash_Update (start session.new) [97])
    [98, 99]).2.2.1 (by decide)

/-- C10: a read completion with an error or end-of-stream status appends one digest line per
newline byte of the chunk, and one more exactly when the chunk is not empty and its last byte
is not a newline; on a chunk of zero bytes it appends nothing, calls no `Update` and leaves
the open digest as it was, not finalised. -/
theorem eof_read_emission_count (digest : List Nat → List Nat) (s : session)
    (data : List Nat) :
    (∃ new, (read_handler digest s true data).lines = s.lines ++ new ∧
      (read_handler digest s true data).output_ = s.output_ ++ new.flatten ∧
      new.length =
        data.count 10 + (if data ≠ [] ∧ data.getLast? ≠ some 10 then 1 else 0)) ∧
    ((read_handler digest s true []).lines = s.lines ∧
      (read_handler digest s true []).output_ = s.output_ ∧
      (read_handler digest s true []).hash_ = s.hash_ ∧
      (read_handler digest s true []).updates = s.updates) := by
  refine ⟨⟨new_lines digest true s.hash_ data, ?_, ?_, ?_⟩, ?_⟩
  · rw [read_handler_spec]
  · rw [read_handler_spec]
  · rw [new_lines_length]; simp
  · rw [read_handler_spec]
    simp [new_hash, new_lines, pieces, tailFrom, recordsFrom]

/-! ## The state machine -/

theorem exec_closed (digest : List Nat → List Nat) (s : session) (hc : s.closed) :
    ∀ (evs : List Event), evs ≠ [] → exec digest s evs = none
  | [], h => absurd rfl h
  | Event.read_done ec data :: es, _ => by simp [exec, step, hc.1]
  | Event.write_done ec :: es, _ => by simp [exec, step, hc.2]

/-- C6: in a reachable state, a read completion with status `ec_r` issues a write that
captures `ec_r`; and the completion of an outstanding write that captured `f`, with status
`ec`, empties `output_`, then issues a read when the prior read was ok (`f = false`) and the
write did not fail, and otherwise leaves the session closed: nothing outstanding, no operation
issued, and no completion ever delivered again. -/
theorem write_completion_transition (digest : List Nat → List Nat) (s : session)
    (hs : Reachable digest s) :
    (∀ (ec_r : Bool) (data : List Nat) (s1 : session),
      step digest s (Event.read_done ec_r data) = some s1 → s1.writes = [ec_r]) ∧
    (∀ (f : Bool) (rest : List Bool) (ec : Bool), s.writes = f :: rest →
      ∃ s2, step digest s (Event.write_done ec) = some s2 ∧ s2.output_ = [] ∧
        (f = false ∧ ec = false →
          s2.reads = 1 ∧ s2.writes = [] ∧ s2.ops = s.ops ++ [Op.read]) ∧
        (¬ (f = false ∧ ec = false) →
          s2.closed ∧ s2.ops = s.ops ∧
          ∀ (evs : List Event), evs ≠ [] → exec digest s2 evs = none)) := by
  obtain ⟨evs, he⟩ := hs
  have hi := inv_exec digest evs s he
  constructor
  · intro ec_r data s1 h1
    simp only [step] at h1
    by_cases hr : 0 < s.reads
    · simp only [hr, if_true, Option.some.injEq] at h1
      subst h1
      have h1 := hi.single
      have hw : s.writes = [] := List.length_eq_zero.mp (by omega)
      rw [read_handler_spec]
      simp [hw]
    · simp [hr] at h1
  · intro f rest ec hw
    have h1 := hi.single
    rw [hw] at h1
    simp only [List.length_cons] at h1
    have hrest : rest = [] := List.length_eq_zero.mp (by omega)
    have hr : s.reads = 0 := by omega
    subst hrest
    refine ⟨write_handler s f [] ec, by simp [step, hw], ?_, ?_, ?_⟩
    · unfold write_handler
      by_cases hc : (!ec && !f) = true <;> simp [hc, do_read]
    · rintro ⟨hf, hec⟩
      simp [write_handler, hf, hec, do_read, hr]
    · intro hn
      have hc : (!ec && !f) = false := by
        cases f <;> cases ec <;> simp at hn ⊢
      have hcl : (write_handler s f [] ec).closed := by
        simp [write_handler, hc, session.closed, hr]
      exact ⟨hcl, by simp [write_handler, hc], exec_closed digest _ hcl⟩

/-- C6 at a concrete input: the write issued after a read that reported end of stream. -/
theorem write_completion_transition_witness :
    Reachable SHA256.sha256 (read_handler SHA256.sha256 (start session.new) true [97]) ∧
    ∃ s2, step SHA256.sha256 (read_handler SHA256.sha256 (start session.new) true [97])
        (Event.write_done false) = some s2 ∧ s2.output_ = [] ∧ s2.closed :=
  have hr : Reachable SHA256.sha256 (read_handler SHA256.sha256 (start session.new) true [97]) :=
    ⟨[Event.read_done true [97]], rfl⟩
  have h := (write_completion_transition SHA256.sha256 _ hr).2 true [] false rfl
  ⟨hr, h.elim (fun s2 h2 => ⟨s2, h2.1, h2.2.1, (h2.2.2.2 (by simp)).1⟩)⟩

/-- C7: in every state a session reaches, at most one operation is outstanding, read or write
(so at most one read, at most one write, never both); the operations issued so far alternate
strictly, a read first; a read completion leaves no read outstanding and issues exactly one
write, whatever `output_` holds; a write completion leaves no write and at most one read. -/
theorem single_flight (digest : List Nat → List Nat) (evs : List Event) (s : session)
    (h : exec digest (start session.new) evs = some s) :
    s.reads + s.writes.length ≤ 1 ∧
    alternating true s.ops = true ∧
    (∀ (ec : Bool) (data : List Nat) (s1 : session),
      step digest s (Event.read_done ec data) = some s1 →
      s1.reads = 0 ∧ s1.writes.length = 1 ∧ s1.ops = s.ops ++ [Op.write] ∧
      s1.written.length = s.written.length + 1) ∧
    (∀ (ec : Bool) (s1 : session), step digest s (Event.write_done ec) = some s1 →
      s1.writes = [] ∧ s1.reads ≤ 1 ∧ (s1.ops = s.ops ∨ s1.ops = s.ops ++ [Op.read])) := by
  have hi := inv_exec digest evs s h
  refine ⟨hi.single, hi.alt, ?_, ?_⟩
  · intro ec data s1 h1
    simp only [step] at h1
    by_cases hr : 0 < s.reads
    · simp only [hr, if_true, Option.some.injEq] at h1
      subst h1
      have h1 := hi.single
      have hw : s.writes = [] := List.length_eq_zero.mp (by omega)
      rw [read_handler_spec]
      simp [hw]
      omega
    · simp [hr] at h1
  · intro ec s1 h1
    simp only [step] at h1
    cases hw : s.writes with
    | nil => simp [hw] at h1
    | cons f rest =>
      simp only [hw, Option.some.injEq] at h1
      subst h1
      have h1 := hi.single
      rw [hw] at h1
      simp only [List.length_cons] at h1
      have hrest : rest = [] := List.length_eq_zero.mp (by omega)
      have hr : s.reads = 0 := by omega
      subst hrest
      unfold write_handler
      by_cases hc : (!ec && !f) = true <;> simp [hc, do_read, hr]

/-- C7 at a concrete input: a session after two reads and one write. -/
theorem single_flight_witness :
    ∃ s, exec SHA256.sha256 (start session.new)
        [Event.read_done false [97, 10], Event.write_done false,
         Event.read_done false []] = some s ∧
      s.reads + s.writes.length ≤ 1 ∧ alternating true s.ops = true :=
  ⟨_, rfl, (single_flight SHA256.sha256
    [Event.read_done false [97, 10], Event.write_done false, Event.read_done false []]
    _ rfl).1,
   (single_flight SHA256.sha256
    [Event.read_done false [97, 10], Event.write_done false, Event.read_done false []]
    _ rfl).2.1⟩

/-- C9: `output_` is empty in the state after `start` and after every write completion, hence
whenever a read is outstanding and its handler begins; the buffer a read handler hands to its
write is the concatenation of the digest lines that handler produced; and in every reachable
state the written buffers, concatenated, are the produced digest lines, concatenated in
production order. -/
theorem output_written_exactly_once (digest : List Nat → List Nat) (evs : List Event)
    (s : session) (h : exec digest (start session.new) evs = some s) :
    (start session.new).output_ = [] ∧
    (∀ (ec : Bool) (s1 : session), step digest s (Event.write_done ec) = some s1 →
      s1.output_ = []) ∧
    (0 < s.reads → s.output_ = []) ∧
    (∀ (ec : Bool) (data : List Nat) (s1 : session),
      step digest s (Event.read_done ec data) = some s1 →
      ∃ new, s1.lines = s.lines ++ new ∧ s1.written = s.written ++ [new.flatten]) ∧
    s.written.flatten = s.lines.flatten := by
  have hi := inv_exec digest evs s h
  have hout : 0 < s.reads → s.output_ = [] := by
    intro hr
    have h1 := hi.single
    exact hi.idle_output (List.length_eq_zero.mp (by omega))
  refine ⟨rfl, ?_, hout, ?_, hi.written_lines⟩
  · intro ec s1 h1
    simp only [step] at h1
    cases hw : s.writes with
    | nil => simp [hw] at h1
    | cons f rest =>
      simp only [hw, Option.some.injEq] at h1
      subst h1
      unfold write_handler
      by_cases hc : (!ec && !f) = true <;> simp [hc, do_read]
  · intro ec data s1 h1
    simp only [step] at h1
    by_cases hr : 0 < s.reads
    · simp only [hr, if_true, Option.some.injEq] at h1
      subst h1
      refine ⟨new_lines digest ec s.hash_ data, ?_, ?_⟩
      · rw [read_handler_spec]
      · rw [read_handler_spec]
        simp [hout hr]
    · simp [hr] at h1

/-- C9 at a concrete input: a session after two reads and two writes. -/
theorem output_written_exactly_once_witness :
    ∃ s, exec SHA256.sha256 (start session.new)
        [Event.read_done false [97, 10, 98], Event.write_done false,
         Event.read_done false [10, 10, 99], Event.write_done false] = some s ∧
      s.output_ = [] ∧ s.written.flatten = s.lines.flatten :=
  ⟨_, rfl, (output_written_exactly_once SHA256.sha256
    [Event.read_done false [97, 10, 98], Event.write_done false,
     Event.read_done false [10, 10, 99], Event.write_done false] _ rfl).2.2.1 (by decide),
   (output_written_exactly_once SHA256.sha256
    [Event.read_done false [97, 10, 98], Event.write_done false,
     Event.read_done false [10, 10, 99], Event.write_done false] _ rfl).2.2.2.2⟩

/-! ## Port selection -/

/-- C8, the code at the failing inputs: a supplied port of 8080, inside `1024-65535`, always
makes the `Invalid port number` handler run, whether reading the option as an `int` succeeds
(the range test then throws) or throws; the service is then started on 8080 only when the
handler completes, and not at all when its own read of the value throws; and when the reading
as an `int` succeeds, a supplied port of 80, outside the range, is not reported and the
service is started on port 80. -/
theorem main_port_check_inverted :
    (∀ (as_string : Option (List Char)),
      (main 0 1 (some 8080) as_string).invalid_port_reported = true) ∧
    (∀ (v : List Char), main 0 1 (some 8080) (some v) = ⟨0, true, false, some 8080⟩) ∧
    main 0 1 (some 8080) none = ⟨0, true, true, none⟩ ∧
    (∀ (as_string : Option (List Char)),
      (main 0 1 none as_string).invalid_port_reported = true ∧
      (main 0 1 none as_string).served_port = none) ∧
    (∀ (as_string : Option (List Char)),
      main 0 1 (some 80) as_string = ⟨0, false, false, some 80⟩) := by
  refine ⟨?_, ?_, ?_, ?_, ?_⟩
  · intro as_string
    cases as_string <;> simp [main]
  · intro v
    simp [main, to_unsigned_short]
  · simp [main]
  · intro as_string
    cases as_string <;> simp [main]
  · intro as_string
    simp [main, to_unsigned_short]

/-- A supplied port that `as<int>()` reads is reported as invalid exactly when it lies inside
`1024-65535`, and the service is not started exactly when, in addition,
`as<std::string>()` throws inside the handler. -/
theorem main_supplied_port (p : Int) (as_string : Option (List Char)) :
    (main 0 1 (some p) as_string).invalid_port_reported = decide (1024 ≤ p ∧ p ≤ 65535) ∧
    ((main 0 1 (some p) as_string).served_port = none ↔
      (1024 ≤ p ∧ p ≤ 65535) ∧ as_string = none) := by
  by_cases h : 1024 ≤ p ∧ p ≤ 65535 <;> cases as_string <;> simp [main, h]

end HashServer
